import Mathlib

/-!
Verification of the behavior-synthesis engine of `src/modules/human_simulator.py`
(MemoCrawl repository).

Modelling conventions (shallow embedding):
* Python `float` values are modelled as exact rationals `ℚ`; screen
  coordinates are integers `ℤ`.
* Python's `int(x)` (truncation toward zero) is modelled by `intTrunc`.
* Every `random.random()`, `np.random.normal`, `random.randint` or
  `random.choice` draw is passed in explicitly as a parameter, so each
  function is a deterministic function of its inputs and its random draws.
* `np.random.normal(mean, std)` is modelled as `mean + std * z` for a
  standard-normal draw `z`; numpy raises `ValueError` when the scale is
  negative, which is modelled by the `Except.error` branch of
  `get_random_delay`.
* `math.sqrt` is kept abstract as a function parameter `sqrtFn` where its
  numeric value matters only inside derived statistics
  (`get_behavior_pattern`); where only `int(math.sqrt s / 10)` is needed
  (`move_mouse_human`'s eased-linear point count) it is modelled exactly by
  `Nat.sqrt s / 10`, justified by lemma `floor_sqrt_div_ten`.
* Wall-clock times (`time.time()`) are passed in as parameters; `time.sleep`
  emits nothing and is dropped.
-/

/-- Python `int()` conversion: truncation of a rational toward zero. -/
def intTrunc (q : ℚ) : ℤ :=
  if 0 ≤ q then ⌊q⌋ else -⌊-q⌋

/-- Dataclass `HumanDelayConfig` (human_simulator.py lines 31–39): six plain
float fields, no `__post_init__`, no validation of any kind. -/
structure HumanDelayConfig where
  min_delay : ℚ
  max_delay : ℚ
  think_time_min : ℚ
  think_time_max : ℚ
  reaction_time_min : ℚ
  reaction_time_max : ℚ
deriving DecidableEq

/-- Dataclass `MouseMoveConfig` (human_simulator.py lines 41–47): four plain
float fields, no validation. -/
structure MouseMoveConfig where
  speed_min : ℚ
  speed_max : ℚ
  curve_factor : ℚ
  jitter_factor : ℚ
deriving DecidableEq

/-- Spec-side formula: clamping a value into the interval `[lo, hi]`. -/
def clampTo (lo hi x : ℚ) : ℚ := max lo (min hi x)

/-- Spec-side formula: a normal draw with mean `m` and standard deviation
`sd`, expressed through a standard-normal draw `z`. -/
def normalDraw (m sd z : ℚ) : ℚ := m + sd * z

/-- `HumanSimulator._get_random_delay` (lines 90–115): compute
`mean = (min+max)/2`, `std = (max-min)/6`, draw `np.random.normal(mean, std)`
and clamp the draw to `[min, max]`.  `np.random.normal` raises `ValueError`
when its scale argument is negative, modelled by the error branch; the draw
itself is `mean + std * z` for the standard-normal draw `z`. -/
def get_random_delay (min_val max_val z : ℚ) : Except String ℚ :=
  let mean := (min_val + max_val) / 2
  let std := (max_val - min_val) / 6
  if std < 0 then
    Except.error "ValueError: scale < 0"
  else
    let delay := mean + std * z
    Except.ok (max min_val (min max_val delay))

/-- A key press emitted through `pyautogui.press`: either an ordinary
character key or the `backspace` key. -/
inductive Key where
  | ch (c : Char)
  | backspace
deriving DecidableEq

/-- The random draws consumed while typing one character of `type_human`
(lines 357–393): `errDraw` is the `random.random()` compared against
`error_probability`; `dir` is the `random.choice([-1, 1])` inside
`_get_adjacent_key` (`true` = +1); `corrDraw1` is the `random.random()`
compared against `error_correction_probability` on line 370 (backspace
decision); `corrDraw2` is the second, independent `random.random()`
compared against the same probability on line 378. -/
structure CharRand where
  errDraw : ℚ
  dir : Bool
  corrDraw1 : ℚ
  corrDraw2 : ℚ

/-- The simplified keyboard layout of `_get_adjacent_key` (lines 405–411). -/
def keyboardRows : List (List Char) :=
  [ [Char.ofNat 96, '1', '2', '3', '4', '5', '6', '7', '8', '9', '0', '-', '='],
    ['q', 'w', 'e', 'r', 't', 'y', 'u', 'i', 'o', 'p', '[', ']', '\\'],
    ['a', 's', 'd', 'f', 'g', 'h', 'j', 'k', 'l', ';', Char.ofNat 39],
    ['z', 'x', 'c', 'v', 'b', 'n', 'm', ',', '.', '/'] ]

/-- `HumanSimulator._get_adjacent_key` (lines 395–425): lowercase the
character, find the row containing it, move ±1 inside the row (direction
drawn by `random.choice([-1, 1])`, here the `dir` flag), return the
neighbouring key if the shifted index is in bounds, else `None`. -/
def get_adjacent_key (c : Char) (dir : Bool) : Option Char :=
  let cl := c.toLower
  match keyboardRows.find? (fun row => row.contains cl) with
  | none => none
  | some keys =>
    match keys.indexOf? cl with
    | none => none
    | some idx =>
      let offset : ℤ := if dir then 1 else -1
      let new_idx : ℤ := (idx : ℤ) + offset
      if 0 ≤ new_idx ∧ new_idx < (keys.length : ℤ) then
        keys.get? new_idx.toNat
      else
        none

/-- The keys emitted for one character of `type_human` (lines 357–381):
if `random.random() < error_probability` and an adjacent key exists, press
the adjacent key; then, if a first independent draw is below
`error_correction_probability`, press backspace; finally the correct
character is pressed when no error was made (or no adjacent key exists),
or when a *second* independent draw is below
`error_correction_probability`. -/
def emitChar (error_probability error_correction_probability : ℚ)
    (c : Char) (r : CharRand) : List Key :=
  let make_error := r.errDraw < error_probability
  if make_error then
    match get_adjacent_key c r.dir with
    | some error_char =>
        ([Key.ch error_char] ++
          (if r.corrDraw1 < error_correction_probability then [Key.backspace] else []))
        ++ (if r.corrDraw2 < error_correction_probability then [Key.ch c] else [])
    | none => [Key.ch c]
  else
    [Key.ch c]

/-- The enumerated character loop of `type_human`: character `i` of the
text consumes the draw record `rs i`. -/
def typeHumanAux (ep ecp : ℚ) (rs : ℕ → CharRand) : ℕ → List Char → List Key
  | _, [] => []
  | i, c :: cs => emitChar ep ecp c (rs i) ++ typeHumanAux ep ecp rs (i + 1) cs

/-- `HumanSimulator.type_human` (lines 339–393), restricted to the keys it
presses (the inter-key sleeps emit nothing). -/
def type_human (text : List Char) (ep ecp : ℚ) (rs : ℕ → CharRand) : List Key :=
  typeHumanAux ep ecp rs 0 text

/-- An entry of `self.mouse_history`: `(target_x, target_y, time.time())`. -/
abbrev HistEntry := ℤ × ℤ × ℚ

/-- The history insertion of `move_mouse_human` (lines 282–285):
`self.mouse_history.append(...)` followed by
`if len(self.mouse_history) > 100: self.mouse_history.pop(0)`. -/
def pushHistory (hist : List HistEntry) (e : HistEntry) : List HistEntry :=
  if 100 < (hist ++ [e]).length then (hist ++ [e]).tail else hist ++ [e]

/-- Integer screen point viewed as a rational point. -/
def toQ (p : ℤ × ℤ) : ℚ × ℚ := ((p.1 : ℚ), (p.2 : ℚ))

/-- Control-point generation of `_generate_bezier_curve` (lines 158–168):
control point `i` (0-based) sits at parameter `t = (i+1)/(k+1)` along the
start–end segment, shifted by the `random.randint(-50, 50)` offsets
`offs[i]`, then truncated with `int()`. -/
def ctrl_points (s e : ℤ × ℤ) (offs : List (ℤ × ℤ)) : List (ℤ × ℤ) :=
  offs.enum.map (fun pr =>
    let t : ℚ := ((pr.1 : ℚ) + 1) / ((offs.length : ℚ) + 1)
    (intTrunc ((s.1 : ℚ) + ((e.1 : ℚ) - (s.1 : ℚ)) * t + (pr.2.1 : ℚ)),
     intTrunc ((s.2 : ℚ) + ((e.2 : ℚ) - (s.2 : ℚ)) * t + (pr.2.2 : ℚ))))

/-- The full interpolation point list `[start] + ctrl_pts + [end]`
(line 178). -/
def bezierPts (s e : ℤ × ℤ) (offs : List (ℤ × ℤ)) : List (ℚ × ℚ) :=
  toQ s :: ((ctrl_points s e offs).map toQ ++ [toQ e])

/-- One pass of the interpolation loop (lines 180–185): each adjacent pair
is combined as `(1-t)·p + t·q`. -/
def stepOnce (t : ℚ) (pts : List (ℚ × ℚ)) : List (ℚ × ℚ) :=
  List.zipWith (fun p q => ((1 - t) * p.1 + t * q.1, (1 - t) * p.2 + t * q.2)) pts pts.tail

/-- The `while len(points) > 1` loop (lines 179–185), expressed with an
explicit fuel (each pass shortens the list by one, so `pts.length` passes
always suffice). -/
def collapseLoop (t : ℚ) : ℕ → List (ℚ × ℚ) → List (ℚ × ℚ)
  | 0, pts => pts
  | fuel + 1, pts => if 1 < pts.length then collapseLoop t fuel (stepOnce t pts) else pts

/-- One curve sample (lines 174–187): run the de Casteljau loop at
parameter `t` and truncate the surviving point with `int()`. -/
def bezierPoint (t : ℚ) (pts : List (ℚ × ℚ)) : ℤ × ℤ :=
  let p := (collapseLoop t pts.length pts).headD (0, 0)
  (intTrunc p.1, intTrunc p.2)

/-- `HumanSimulator._generate_bezier_curve` (lines 143–189): 50 samples at
`t = i / 49`, `i = 0, …, 49`.  The control-point offsets (and through their
number the `control_points` argument) are the explicit parameter `offs`. -/
def generate_bezier_curve (s e : ℤ × ℤ) (offs : List (ℤ × ℤ)) : List (ℤ × ℤ) :=
  (List.range 50).map (fun (i : ℕ) => bezierPoint ((i : ℚ) / 49) (bezierPts s e offs))

/-- The `for x, y in path` loop of `_add_jitter_to_path`, with `i` the
position of the current point (draw `js i` is consumed for point `i`). -/
def addJitterAux (js : ℕ → ℤ × ℤ) : ℕ → List (ℤ × ℤ) → List (ℤ × ℤ)
  | _, [] => []
  | i, p :: ps => (p.1 + (js i).1, p.2 + (js i).2) :: addJitterAux js (i + 1) ps

/-- `HumanSimulator._add_jitter_to_path` (lines 191–210): point `i` of the
path is shifted by the jitter draw `js i`; in the source each component of
`js i` is `random.randint(-int(jitter_factor*10), int(jitter_factor*10))`,
so it is bounded by `intTrunc (jitter_factor * 10)` in absolute value. -/
def add_jitter_to_path (path : List (ℤ × ℤ)) (js : ℕ → ℤ × ℤ) : List (ℤ × ℤ) :=
  addJitterAux js 0 path

/-- The `num_points` count of the eased-linear branch of `move_mouse_human`
(lines 252–253): `max(5, int(math.sqrt(dx² + dy²) / 10))`, modelled exactly
by `max 5 (Nat.sqrt (dx² + dy²) / 10)` (see `floor_sqrt_div_ten`). -/
def easedNumSegments (s e : ℤ × ℤ) : ℕ :=
  max 5 (Nat.sqrt (((e.1 - s.1) ^ 2 + (e.2 - s.2) ^ 2).toNat) / 10)

/-- One point of the eased-linear branch (lines 256–262): the smoothstep
ease `t' = t²(3 − 2t)` at `t = i / n`, applied to both axes and truncated
with `int()`. -/
def easedPointAt (s e : ℤ × ℤ) (n i : ℕ) : ℤ × ℤ :=
  let t : ℚ := (i : ℚ) / (n : ℚ)
  let t_eased := t * t * (3 - 2 * t)
  (intTrunc ((s.1 : ℚ) + ((e.1 : ℚ) - (s.1 : ℚ)) * t_eased),
   intTrunc ((s.2 : ℚ) + ((e.2 : ℚ) - (s.2 : ℚ)) * t_eased))

/-- The eased-linear branch of `move_mouse_human` (lines 250–262): the loop
`for i in range(num_points + 1)` produces `num_points + 1` points. -/
def eased_linear_path (s e : ℤ × ℤ) : List (ℤ × ℤ) :=
  (List.range (easedNumSegments s e + 1)).map (easedPointAt s e (easedNumSegments s e))

/-- The mutable fields of `HumanSimulator` touched by the modelled actions
(lines 83–86): the pointer position held by the executor (`pyautogui`),
`self.mouse_history`, `self.action_counter`, `self.last_action_time`. -/
structure SimState where
  pos : ℤ × ℤ
  mouse_history : List HistEntry
  action_counter : ℕ
  last_action_time : ℚ
deriving DecidableEq

/-- A primitive pointer event issued to the Input Executor (`pyautogui`). -/
inductive Ev where
  | move (p : ℤ × ℤ)
  | down
  | up
deriving DecidableEq

/-- The random draws consumed by one `move_mouse_human` call:
`useCurveDraw` is the `random.random()` compared against 0.7 (line 242);
`ctrlOffs` are the control-point offsets (their number is the
`random.randint(2, 4)` control-point count); `js` are the per-point jitter
draws.  Speed and per-segment sleep draws affect timing only and are
dropped. -/
structure MoveRand where
  useCurveDraw : ℚ
  ctrlOffs : List (ℤ × ℤ)
  js : ℕ → ℤ × ℤ

/-- `HumanSimulator.move_mouse_human` (lines 212–290) as a state
transformer that also returns the list of issued `moveTo` events: if the
target is closer than 2 pixels in both axes the call returns at line 232
with nothing done; otherwise the path (curved with jitter when
`useCurveDraw < 0.7`, else eased-linear) is traversed, the history entry
`(target_x, target_y, tNow)` is pushed, and the action counter is
incremented.  `last_action_time` is refreshed by the `_human_delay`
reaction pause of the non-skip branch. -/
def move_mouse_human (st : SimState) (target : ℤ × ℤ) (r : MoveRand) (tNow : ℚ) :
    SimState × List Ev :=
  if |st.pos.1 - target.1| < 2 ∧ |st.pos.2 - target.2| < 2 then
    (st, [])
  else
    let path :=
      if r.useCurveDraw < 7 / 10 then
        add_jitter_to_path (generate_bezier_curve st.pos target r.ctrlOffs) r.js
      else
        eased_linear_path st.pos target
    ({ pos := path.getLastD st.pos,
       mouse_history := pushHistory st.mouse_history (target.1, target.2, tNow),
       action_counter := st.action_counter + 1,
       last_action_time := tNow },
     path.map Ev.move)

/-- `HumanSimulator.drag_human` (lines 458–497): move to the start point
(through `move_mouse_human`), press the mouse down, traverse a Bézier
curve from `(start_x, start_y)` to `(end_x, end_y)` issuing one `moveTo`
per path point, then release the mouse. -/
def drag_human (st : SimState) (startP endP : ℤ × ℤ) (mr : MoveRand) (tNow : ℚ)
    (dragOffs : List (ℤ × ℤ)) : SimState × List Ev :=
  let m := move_mouse_human st startP mr tNow
  let path := generate_bezier_curve startP endP dragOffs
  ({ m.1 with pos := path.getLastD m.1.pos },
   m.2 ++ Ev.down :: (path.map Ev.move ++ [Ev.up]))

/-- The derived statistics dictionary of `get_behavior_pattern`
(lines 622–627). -/
structure BehaviorPattern where
  total_actions : ℕ
  mouse_history_length : ℕ
  average_speed : ℚ
  last_action_time : ℚ
deriving DecidableEq

/-- Elapsed time `t2 - t1` of a consecutive history pair (line 616). -/
def tdiff (pr : HistEntry × HistEntry) : ℚ := pr.2.2.2 - pr.1.2.2

/-- Speed of a consecutive history pair (lines 615–618):
Euclidean distance over elapsed time; `math.sqrt` is the abstract
parameter `sqrtFn`. -/
def pairSpeed (sqrtFn : ℚ → ℚ) (pr : HistEntry × HistEntry) : ℚ :=
  sqrtFn (((pr.2.1 - pr.1.1 : ℤ) : ℚ) ^ 2 + ((pr.2.2.1 - pr.1.2.1 : ℤ) : ℚ) ^ 2) / tdiff pr

/-- The `speeds` list of `get_behavior_pattern` (lines 611–618): one entry
per consecutive history pair whose elapsed time is positive (pairs with
`time_diff ≤ 0` are skipped by the source). -/
def speedsOf (sqrtFn : ℚ → ℚ) (hist : List HistEntry) : List ℚ :=
  (hist.zip hist.tail).filterMap
    (fun pr => if 0 < tdiff pr then some (pairSpeed sqrtFn pr) else none)

/-- The average-speed formula as the specification words it: the mean of
(distance / elapsed time) over *every* pair of consecutive history
entries. -/
def meanSpeedSpec (sqrtFn : ℚ → ℚ) (hist : List HistEntry) : ℚ :=
  ((hist.zip hist.tail).map (pairSpeed sqrtFn)).sum / ((hist.zip hist.tail).length : ℚ)

/-- `HumanSimulator.get_behavior_pattern` (lines 600–627) as a state
transformer: the source method only reads `self`, so the state component
is returned unchanged; it returns the empty dictionary (`none`) when the
history holds fewer than 2 entries. -/
def get_behavior_pattern (sqrtFn : ℚ → ℚ) (st : SimState) :
    Option BehaviorPattern × SimState :=
  if st.mouse_history.length < 2 then (none, st)
  else
    (some ⟨st.action_counter, st.mouse_history.length,
      (if speedsOf sqrtFn st.mouse_history = [] then 0
       else (speedsOf sqrtFn st.mouse_history).sum /
         ((speedsOf sqrtFn st.mouse_history).length : ℚ)),
      st.last_action_time⟩, st)

/-- Concrete history entries used by the FIFO witness: entry `i` is
`(i, 0, 0)`. -/
def histEntryAt (i : ℕ) : HistEntry := ((i : ℤ), 0, 0)

/-- 99 pairwise-distinct history entries `(1,0,0) … (99,0,0)`. -/
def histRest : List HistEntry := (List.range 99).map (fun i => histEntryAt (i + 1))

/-- A concrete simulator state used by the behavior-pattern witness. -/
def behaviorSampleState : SimState :=
  { pos := (0, 0), mouse_history := [(0, 0, 0), (3, 4, 1)],
    action_counter := 7, last_action_time := 3 }

theorem intTrunc_intCast (n : ℤ) : intTrunc (n : ℚ) = n := by
  unfold intTrunc
  by_cases h : (0 : ℚ) ≤ (n : ℚ)
  · simp [h]
  · simp only [h, if_false]
    rw [show (-(n : ℚ)) = ((-n : ℤ) : ℚ) by push_cast; ring]
    rw [Int.floor_intCast]
    ring

theorem intTrunc_le_of_nonneg {q : ℚ} (h : 0 ≤ q) : (intTrunc q : ℚ) ≤ q := by
  unfold intTrunc
  simp only [h, if_true]
  exact Int.floor_le q

/-- Justification that `int(math.sqrt s / 10)` equals `Nat.sqrt s / 10`
for a natural `s`: the floor of the real square root is `Nat.sqrt`, and
flooring commutes with division by the natural number 10. -/
theorem floor_sqrt_div_ten (s : ℕ) : ⌊Real.sqrt s / 10⌋₊ = Nat.sqrt s / 10 := by
  rw [show (10 : ℝ) = ((10 : ℕ) : ℝ) by norm_num, Nat.floor_div_nat,
    Real.nat_floor_real_sqrt_eq_nat_sqrt]

/-- C2 counterexample: the dataclasses validate nothing.  A delay
configuration with `min_delay = 5 ≥ 1 = max_delay`, a motion configuration
with `speed_min = 0.8 > 0.3 = speed_max` and a delay configuration with a
negative duration are all accepted verbatim at construction; the inverted
range instead surfaces later, when `_get_random_delay` hands a negative
scale to `np.random.normal` (a call-time `ValueError`). -/
theorem config_validation_cex :
    (HumanDelayConfig.mk 5 1 (2/10) 1 (1/10) (3/10)).max_delay ≤
      (HumanDelayConfig.mk 5 1 (2/10) 1 (1/10) (3/10)).min_delay ∧
    (MouseMoveConfig.mk (8/10) (3/10) (3/10) (5/100)).speed_max ≤
      (MouseMoveConfig.mk (8/10) (3/10) (3/10) (5/100)).speed_min ∧
    (HumanDelayConfig.mk (-1) (1/2) (2/10) 1 (1/10) (3/10)).min_delay < 0 ∧
    get_random_delay 5 1 0 = Except.error "ValueError: scale < 0" := by
  refine ⟨by norm_num, by norm_num, by norm_num, ?_⟩
  norm_num [get_random_delay]

/-- C2 (amended): the delay and motion configuration constructors perform
no validation: any field values — including `min ≥ max` and negative
durations — are accepted and stored verbatim at construction, and an
inverted delay range makes the delay sampler fail at call time instead
(negative scale handed to `np.random.normal`). -/
theorem config_no_validation :
    (∀ a b c d e f : ℚ, (HumanDelayConfig.mk a b c d e f).min_delay = a ∧
        (HumanDelayConfig.mk a b c d e f).max_delay = b) ∧
    (∀ p q r j : ℚ, (MouseMoveConfig.mk p q r j).speed_min = p ∧
        (MouseMoveConfig.mk p q r j).speed_max = q) ∧
    (∀ lo hi z : ℚ, hi < lo →
      get_random_delay lo hi z = Except.error "ValueError: scale < 0") := by
  refine ⟨fun a b c d e f => ⟨rfl, rfl⟩, fun p q r j => ⟨rfl, rfl⟩, fun lo hi z h => ?_⟩
  unfold get_random_delay
  rw [if_pos]
  exact div_neg_of_neg_of_pos (by linarith) (by norm_num)

theorem config_no_validation_witness :
    (1 : ℚ) < 5 ∧ get_random_delay 5 1 0 = Except.error "ValueError: scale < 0" :=
  ⟨by norm_num, config_no_validation.2.2 5 1 0 (by norm_num)⟩

/-- C5: for `min < max` the delay sampler succeeds and returns exactly the
normal draw with mean `(min+max)/2` and standard deviation `(max-min)/6`
clamped to `[min, max]`; in particular the returned value always lies in
the closed interval `[min, max]`. -/
theorem delay_sample_in_range (lo hi z : ℚ) (h : lo < hi) :
    ∃ d, get_random_delay lo hi z = Except.ok d ∧
      lo ≤ d ∧ d ≤ hi ∧
      d = clampTo lo hi (normalDraw ((lo + hi) / 2) ((hi - lo) / 6) z) := by
  refine ⟨max lo (min hi ((lo + hi) / 2 + (hi - lo) / 6 * z)), ?_, ?_, ?_, rfl⟩
  · unfold get_random_delay
    rw [if_neg]
    push_neg
    exact div_nonneg (by linarith) (by norm_num)
  · exact le_max_left _ _
  · exact max_le h.le (min_le_left _ _)

theorem delay_sample_in_range_witness :
    (0 : ℚ) < 1 ∧ ∃ d, get_random_delay 0 1 100 = Except.ok d ∧ 0 ≤ d ∧ d ≤ 1 ∧
      d = clampTo 0 1 (normalDraw ((0 + 1) / 2) ((1 - 0) / 6) 100) :=
  ⟨by norm_num, delay_sample_in_range 0 1 100 (by norm_num)⟩

theorem emitChar_no_error {r : CharRand} (ecp : ℚ) (c : Char)
    (h : 0 ≤ r.errDraw) : emitChar 0 ecp c r = [Key.ch c] := by
  unfold emitChar
  simp [not_lt_of_le h]

theorem typeHumanAux_no_error (ecp : ℚ) (rs : ℕ → CharRand)
    (h : ∀ i, 0 ≤ (rs i).errDraw) :
    ∀ (i : ℕ) (text : List Char),
      typeHumanAux 0 ecp rs i text = text.map Key.ch
  | _, [] => rfl
  | i, c :: cs => by
      rw [typeHumanAux, emitChar_no_error ecp c (h i),
        typeHumanAux_no_error ecp rs h (i + 1) cs]
      rfl

/-- C1 (code evaluated at the failing input): `type_human` draws the
correction probability *twice* per erroneous character (lines 370 and 378)
instead of once.  For the character `a` with error draw `0.5 < 1`,
direction `+1` (adjacent key `s`), first correction draw `0 < 0.8` and
second correction draw `0.9 ≥ 0.8`, the code emits exactly
`[s, backspace]` — the correct character is dropped entirely, which a
single correction draw can never do.  With the draws swapped it emits
`[s, a]` (wrong key left standing, correct key appended without a
backspace).  The claim's concrete `errorProbability = 1`,
`correctionProbability = 1` case does hold: both draws pass and the
emission is `[s, backspace, a]`. -/
theorem type_human_double_correction_draw :
    emitChar 1 (4/5) 'a' ⟨1/2, true, 0, 9/10⟩ = [Key.ch 's', Key.backspace] ∧
    Key.ch 'a' ∉ emitChar 1 (4/5) 'a' ⟨1/2, true, 0, 9/10⟩ ∧
    emitChar 1 (4/5) 'a' ⟨1/2, true, 9/10, 0⟩ = [Key.ch 's', Key.ch 'a'] ∧
    emitChar 1 1 'a' ⟨1/2, true, 1/2, 1/2⟩ = [Key.ch 's', Key.backspace, Key.ch 'a'] := by
  have h1 : get_adjacent_key 'a' true = some 's' := by decide
  refine ⟨?_, ?_, ?_, ?_⟩ <;>
    first
    | (norm_num [emitChar, h1]; done)
    | (norm_num [emitChar, h1]; decide)

/-- C7: with `error_probability = 0` no `random.random()` draw (always
`≥ 0`) can fall below the error probability, so `type_human` presses
exactly the characters of the text, in order, with no backspaces and no
additional keys. -/
theorem type_human_zero_error_prob (text : List Char) (ecp : ℚ)
    (rs : ℕ → CharRand) (h : ∀ i, 0 ≤ (rs i).errDraw) :
    type_human text 0 ecp rs = text.map Key.ch :=
  typeHumanAux_no_error ecp rs h 0 text

theorem type_human_zero_error_prob_witness :
    (∀ i : ℕ, 0 ≤ ((fun _ => (⟨0, true, 0, 0⟩ : CharRand)) i).errDraw) ∧
    type_human ['a', 'b', 'c'] 0 (4/5) (fun _ => ⟨0, true, 0, 0⟩) =
      [Key.ch 'a', Key.ch 'b', Key.ch 'c'] :=
  ⟨fun _ => le_refl 0,
   type_human_zero_error_prob ['a', 'b', 'c'] (4/5) _ (fun _ => le_refl 0)⟩

theorem pushHistory_length_le {hist : List HistEntry} (e : HistEntry)
    (h : hist.length ≤ 100) : (pushHistory hist e).length ≤ 100 := by
  unfold pushHistory
  split
  · simp only [List.length_tail, List.length_append, List.length_singleton]
    omega
  · next hc =>
    simp only [not_lt, List.length_append, List.length_singleton] at hc ⊢
    omega

theorem pushHistory_small {hist : List HistEntry} (e : HistEntry)
    (h : hist.length ≤ 99) : pushHistory hist e = hist ++ [e] := by
  unfold pushHistory
  rw [if_neg]
  simp only [not_lt, List.length_append, List.length_singleton]
  omega

theorem pushHistory_full {hist : List HistEntry} (e : HistEntry)
    (h : hist.length = 100) : pushHistory hist e = hist.tail ++ [e] := by
  unfold pushHistory
  rw [if_pos (by simp [h])]
  cases hist with
  | nil => simp at h
  | cons a t => simp

theorem foldl_pushHistory_small (es : List HistEntry) (h : es.length ≤ 100) :
    List.foldl pushHistory [] es = es := by
  induction es using List.reverseRecOn with
  | nil => rfl
  | append_singleton l a ih =>
    simp only [List.length_append, List.length_singleton] at h
    rw [List.foldl_append, List.foldl_cons, List.foldl_nil,
      ih (by omega), pushHistory_small a (by omega)]

/-- C6: the history buffer update keeps every buffer of at most 100
entries at most 100 entries long, and inserting a 101st entry into a full
buffer evicts exactly the oldest (first) entry: after 101 insertions of
pairwise-distinct entries starting from the empty buffer the content is
exactly entries 2…101, so the first-inserted entry is absent and the
last-inserted entry is present. -/
theorem mouse_history_fifo (e0 x : HistEntry) (rest : List HistEntry)
    (hlen : rest.length = 99) (hnd : (e0 :: (rest ++ [x])).Nodup) :
    (∀ (h : List HistEntry) (e : HistEntry),
      h.length ≤ 100 → (pushHistory h e).length ≤ 100) ∧
    List.foldl pushHistory [] ((e0 :: rest) ++ [x]) = rest ++ [x] ∧
    e0 ∉ List.foldl pushHistory [] ((e0 :: rest) ++ [x]) ∧
    x ∈ List.foldl pushHistory [] ((e0 :: rest) ++ [x]) := by
  have h100 : (e0 :: rest).length = 100 := by simp [hlen]
  have heq : List.foldl pushHistory [] ((e0 :: rest) ++ [x]) = rest ++ [x] := by
    rw [List.foldl_append, List.foldl_cons, List.foldl_nil,
      foldl_pushHistory_small _ (le_of_eq h100), pushHistory_full x h100,
      List.tail_cons]
  refine ⟨fun h e hle => pushHistory_length_le e hle, heq, ?_, ?_⟩
  · rw [heq]
    exact (List.nodup_cons.mp hnd).1
  · rw [heq]
    simp

theorem mouse_history_fifo_witness :
    (histRest.length = 99 ∧ (histEntryAt 0 :: (histRest ++ [histEntryAt 100])).Nodup) ∧
    histEntryAt 0 ∉
      List.foldl pushHistory [] ((histEntryAt 0 :: histRest) ++ [histEntryAt 100]) ∧
    histEntryAt 100 ∈
      List.foldl pushHistory [] ((histEntryAt 0 :: histRest) ++ [histEntryAt 100]) := by
  have h1 : histRest.length = 99 := by decide
  have h2 : (histEntryAt 0 :: (histRest ++ [histEntryAt 100])).Nodup := by decide
  exact ⟨⟨h1, h2⟩, (mouse_history_fifo _ _ _ h1 h2).2.2⟩

theorem zipWith_second_eq {α : Type} :
    ∀ (l : List α), List.zipWith (fun _ b => b) l l.tail = l.tail
  | [] => rfl
  | [_] => rfl
  | _ :: b :: m => congrArg (b :: ·) (zipWith_second_eq (b :: m))

theorem stepOnce_one (pts : List (ℚ × ℚ)) : stepOnce 1 pts = pts.tail := by
  unfold stepOnce
  have hfun : (fun (p q : ℚ × ℚ) =>
      ((1 - (1 : ℚ)) * p.1 + 1 * q.1, (1 - (1 : ℚ)) * p.2 + 1 * q.2))
      = fun (_ q : ℚ × ℚ) => q := by
    funext p q
    norm_num
  rw [hfun, zipWith_second_eq]

theorem eq_singleton_of_getLast? {α : Type} {pts : List α} {x : α}
    (hlast : pts.getLast? = some x) (hlen : pts.length ≤ 1) : pts = [x] := by
  match pts with
  | [] => simp at hlast
  | [y] =>
    simp only [List.getLast?_singleton, Option.some.injEq] at hlast
    rw [hlast]
  | _ :: _ :: _ => simp at hlen

theorem collapseLoop_one (fuel : ℕ) : ∀ (pts : List (ℚ × ℚ)) (x : ℚ × ℚ),
    pts.getLast? = some x → pts.length ≤ fuel + 1 → collapseLoop 1 fuel pts = [x] := by
  induction fuel with
  | zero =>
    intro pts x hlast hlen
    rw [eq_singleton_of_getLast? hlast hlen]
    rfl
  | succ fuel ih =>
    intro pts x hlast hlen
    by_cases hl : 1 < pts.length
    · rw [collapseLoop, if_pos hl, stepOnce_one]
      match pts, hl with
      | _ :: b :: m, _ =>
        rw [List.getLast?_cons_cons] at hlast
        exact ih (b :: m) x hlast (by simp at hlen ⊢; omega)
    · rw [collapseLoop, if_neg hl, eq_singleton_of_getLast? hlast (by omega)]

theorem getLast?_range_map {β : Type} (n : ℕ) (f : ℕ → β) :
    ((List.range (n + 1)).map f).getLast? = some (f n) := by
  rw [List.range_succ, List.map_append, List.map_singleton, List.getLast?_concat]

theorem bezierPts_getLast? (s e : ℤ × ℤ) (offs : List (ℤ × ℤ)) :
    (bezierPts s e offs).getLast? = some (toQ e) := by
  unfold bezierPts
  rw [← List.cons_append, List.getLast?_concat]

theorem bezierPoint_one (pts : List (ℚ × ℚ)) (x : ℚ × ℚ) (h : pts.getLast? = some x) :
    bezierPoint 1 pts = (intTrunc x.1, intTrunc x.2) := by
  simp only [bezierPoint]
  rw [collapseLoop_one pts.length pts x h (Nat.le_succ _)]
  rfl

theorem generate_bezier_curve_getLast? (s e : ℤ × ℤ) (offs : List (ℤ × ℤ)) :
    (generate_bezier_curve s e offs).getLast? = some e := by
  unfold generate_bezier_curve
  rw [show (50 : ℕ) = 49 + 1 from rfl, getLast?_range_map]
  have ht : ((49 : ℕ) : ℚ) / 49 = 1 := by norm_num
  rw [ht, bezierPoint_one _ _ (bezierPts_getLast? s e offs)]
  simp [toQ, intTrunc_intCast]

theorem easedNumSegments_pos (s e : ℤ × ℤ) : easedNumSegments s e ≠ 0 := by
  have : 5 ≤ easedNumSegments s e := le_max_left _ _
  omega

theorem easedPointAt_self (s e : ℤ × ℤ) (n : ℕ) (hn : n ≠ 0) :
    easedPointAt s e n n = e := by
  have ht : ((n : ℚ)) / (n : ℚ) = 1 := div_self (Nat.cast_ne_zero.mpr hn)
  simp only [easedPointAt, ht]
  have h1 : ((s.1 : ℚ)) + ((e.1 : ℚ) - (s.1 : ℚ)) * ((1 : ℚ) * 1 * (3 - 2 * 1))
      = ((e.1 : ℤ) : ℚ) := by ring
  have h2 : ((s.2 : ℚ)) + ((e.2 : ℚ) - (s.2 : ℚ)) * ((1 : ℚ) * 1 * (3 - 2 * 1))
      = ((e.2 : ℤ) : ℚ) := by ring
  rw [h1, h2, intTrunc_intCast, intTrunc_intCast]

theorem eased_linear_path_getLast? (s e : ℤ × ℤ) :
    (eased_linear_path s e).getLast? = some e := by
  unfold eased_linear_path
  rw [getLast?_range_map, easedPointAt_self s e _ (easedNumSegments_pos s e)]

theorem addJitterAux_length (js : ℕ → ℤ × ℤ) :
    ∀ (ps : List (ℤ × ℤ)) (i : ℕ), (addJitterAux js i ps).length = ps.length
  | [], _ => rfl
  | _ :: ps, i => congrArg Nat.succ (addJitterAux_length js ps (i + 1))

theorem addJitterAux_getLast? (js : ℕ → ℤ × ℤ) :
    ∀ (ps : List (ℤ × ℤ)) (i : ℕ) (p : ℤ × ℤ), ps.getLast? = some p →
      ∃ j, (addJitterAux js i ps).getLast? = some (p.1 + (js j).1, p.2 + (js j).2)
  | [], _, _, h => by simp at h
  | [q], i, p, h => by
      simp only [List.getLast?_singleton, Option.some.injEq] at h
      subst h
      exact ⟨i, rfl⟩
  | q :: q' :: ps, i, p, h => by
      rw [List.getLast?_cons_cons] at h
      obtain ⟨j, hj⟩ := addJitterAux_getLast? js (q' :: ps) (i + 1) p h
      refine ⟨j, ?_⟩
      have expand : addJitterAux js (i + 1) (q' :: ps) =
          (q'.1 + (js (i + 1)).1, q'.2 + (js (i + 1)).2) :: addJitterAux js (i + 1 + 1) ps :=
        rfl
      rw [show addJitterAux js i (q :: q' :: ps) =
          (q.1 + (js i).1, q.2 + (js i).2) :: addJitterAux js (i + 1) (q' :: ps) from rfl,
        expand, List.getLast?_cons_cons, ← expand]
      exact hj

/-- C3 counterexample: for start `(0,0)` and end `(0,2)` (which differ by
2 pixels in the y axis, the claim's precondition, and have Euclidean
distance 2) the eased-linear path holds `max(5, int(2/10)) + 1 = 6`
points, not the `max(5, 2/10) = 5` points the claim states: the source
loop `for i in range(num_points + 1)` emits one point more than
`num_points`. -/
theorem eased_point_count_cex :
    (2 : ℤ) ≤ |(4 : ℤ) - 2| ∧
    (eased_linear_path (1, 2) (1, 4)).length = 6 ∧
    ¬(eased_linear_path (1, 2) (1, 4)).length = 5 := by
  have hs : Nat.sqrt 4 = 2 := by
    rw [show (4 : ℕ) = 2 * 2 from rfl, Nat.sqrt_eq]
  have hn : easedNumSegments (1, 2) (1, 4) = 5 := by
    simp only [easedNumSegments]
    norm_num [show ((4 : ℤ)).toNat = 4 from rfl, hs]
  refine ⟨by norm_num, ?_, ?_⟩ <;> simp [eased_linear_path, hn]

/-- C3 (amended): every synthesized path is non-empty; a curved path has
exactly 50 points (before and after jitter); an eased-linear path has
exactly `max(5, ⌊distance/10⌋) + 1` points, one more than the claim's
`max(5, distance/10)`. -/
theorem path_point_counts (s e : ℤ × ℤ) (offs : List (ℤ × ℤ)) (js : ℕ → ℤ × ℤ) :
    (generate_bezier_curve s e offs).length = 50 ∧
    (add_jitter_to_path (generate_bezier_curve s e offs) js).length = 50 ∧
    (eased_linear_path s e).length =
      max 5 (Nat.sqrt (((e.1 - s.1) ^ 2 + (e.2 - s.2) ^ 2).toNat) / 10) + 1 ∧
    generate_bezier_curve s e offs ≠ [] ∧
    eased_linear_path s e ≠ [] := by
  have h1 : (generate_bezier_curve s e offs).length = 50 := by
    simp [generate_bezier_curve]
  have h3 : (eased_linear_path s e).length = easedNumSegments s e + 1 := by
    simp [eased_linear_path]
  refine ⟨h1, ?_, ?_, ?_, ?_⟩
  · rw [add_jitter_to_path, addJitterAux_length, h1]
  · rw [h3]
    rfl
  · intro hnil
    rw [hnil] at h1
    simp at h1
  · intro hnil
    rw [hnil] at h3
    simp at h3

/-- C4: the Bézier curve evaluated at its last parameter `t = 49/49 = 1`
collapses to the requested end point exactly, so the last point of a
jittered curved path is `end + jitter draw`, within `jitterFactor × 10`
pixels of `end` in each axis (the source jitter draws satisfy
`|j| ≤ int(jitterFactor·10) ≤ jitterFactor·10`); the last point of an
eased-linear path (to which no jitter is applied) equals `end` exactly. -/
theorem synthesized_path_endpoint (s e : ℤ × ℤ) (offs : List (ℤ × ℤ))
    (js : ℕ → ℤ × ℤ) (jf : ℚ) (hjf : 0 ≤ jf)
    (hjs : ∀ i, |(js i).1| ≤ intTrunc (jf * 10) ∧ |(js i).2| ≤ intTrunc (jf * 10)) :
    (generate_bezier_curve s e offs).getLast? = some e ∧
    (∀ p, (add_jitter_to_path (generate_bezier_curve s e offs) js).getLast? = some p →
      |(p.1 : ℚ) - (e.1 : ℚ)| ≤ jf * 10 ∧ |(p.2 : ℚ) - (e.2 : ℚ)| ≤ jf * 10) ∧
    (eased_linear_path s e).getLast? = some e := by
  refine ⟨generate_bezier_curve_getLast? s e offs, ?_, eased_linear_path_getLast? s e⟩
  intro p hp
  obtain ⟨j, hj⟩ := addJitterAux_getLast? js (generate_bezier_curve s e offs) 0 e
    (generate_bezier_curve_getLast? s e offs)
  rw [add_jitter_to_path, hj] at hp
  have hpe : (e.1 + (js j).1, e.2 + (js j).2) = p := Option.some.inj hp
  have hb : (intTrunc (jf * 10) : ℚ) ≤ jf * 10 :=
    intTrunc_le_of_nonneg (by positivity)
  constructor
  · have hc : (p.1 : ℚ) - (e.1 : ℚ) = ((js j).1 : ℚ) := by
      rw [← hpe]
      push_cast
      ring
    rw [hc, ← Int.cast_abs]
    exact le_trans (by exact_mod_cast (hjs j).1) hb
  · have hc : (p.2 : ℚ) - (e.2 : ℚ) = ((js j).2 : ℚ) := by
      rw [← hpe]
      push_cast
      ring
    rw [hc, ← Int.cast_abs]
    exact le_trans (by exact_mod_cast (hjs j).2) hb

theorem synthesized_path_endpoint_witness :
    ((0 : ℚ) ≤ 0 ∧
      (∀ i : ℕ, |((fun (_ : ℕ) => ((0, 0) : ℤ × ℤ)) i).1| ≤ intTrunc ((0 : ℚ) * 10) ∧
        |((fun (_ : ℕ) => ((0, 0) : ℤ × ℤ)) i).2| ≤ intTrunc ((0 : ℚ) * 10)) ) ∧
    (eased_linear_path (0, 0) (10, 10)).getLast? = some (10, 10) :=
  ⟨⟨le_refl 0, fun _ => by norm_num [intTrunc]⟩,
   (synthesized_path_endpoint (0, 0) (10, 10) [(5, 5)] (fun _ => (0, 0)) 0
     (le_refl 0) (fun _ => by norm_num [intTrunc])).2.2⟩

/-- C10: when the target is closer than 2 pixels in both axes the early
return at line 232 fires: no event is issued and the state — history,
action counter, last-action time — is exactly the input state. -/
theorem move_skip_within_tolerance (st : SimState) (target : ℤ × ℤ) (r : MoveRand)
    (tNow : ℚ) (h1 : |st.pos.1 - target.1| < 2) (h2 : |st.pos.2 - target.2| < 2) :
    move_mouse_human st target r tNow = (st, []) := by
  unfold move_mouse_human
  rw [if_pos ⟨h1, h2⟩]

theorem move_skip_within_tolerance_witness :
    (|(5 : ℤ) - 6| < 2 ∧ |(5 : ℤ) - 6| < 2) ∧
    move_mouse_human ⟨(5, 5), [], 0, 0⟩ (6, 6) ⟨0, [], fun _ => (0, 0)⟩ 0 =
      (⟨(5, 5), [], 0, 0⟩, []) :=
  ⟨⟨by decide, by decide⟩,
   move_skip_within_tolerance _ _ _ _ (by decide) (by decide)⟩

theorem move_mouse_human_trace_moves (st : SimState) (target : ℤ × ℤ) (r : MoveRand)
    (tNow : ℚ) : ∀ ev ∈ (move_mouse_human st target r tNow).2, ∃ p, ev = Ev.move p := by
  intro ev hev
  unfold move_mouse_human at hev
  split at hev
  · simp at hev
  · simp only [List.mem_map] at hev
    obtain ⟨p, _, hp⟩ := hev
    exact ⟨p, hp.symm⟩

/-- C8: the event trace of `drag_human` is
`approach moves ++ [mouseDown] ++ drag-path moves ++ [mouseUp]`: every
event before `mouseDown` is a plain approach `moveTo` (issued by
`move_mouse_human` on the way to the start point), so `mouseDown` precedes
every traversal move of the 50-point drag path, whose final point is the
requested end; `mouseUp` is the very last event, after the final path
point and never between path points. -/
theorem drag_down_before_path_up_after (st : SimState) (startP endP : ℤ × ℤ)
    (mr : MoveRand) (tNow : ℚ) (dragOffs : List (ℤ × ℤ)) :
    ∃ (approach : List Ev) (dragPath : List (ℤ × ℤ)),
      (drag_human st startP endP mr tNow dragOffs).2 =
        approach ++ Ev.down :: (dragPath.map Ev.move ++ [Ev.up]) ∧
      (∀ ev ∈ approach, ∃ p, ev = Ev.move p) ∧
      dragPath.length = 50 ∧
      dragPath.getLast? = some endP ∧
      (drag_human st startP endP mr tNow dragOffs).2.getLast? = some Ev.up := by
  refine ⟨(move_mouse_human st startP mr tNow).2,
    generate_bezier_curve startP endP dragOffs, rfl,
    move_mouse_human_trace_moves st startP mr tNow, by simp [generate_bezier_curve],
    generate_bezier_curve_getLast? startP endP dragOffs, ?_⟩
  show ((move_mouse_human st startP mr tNow).2 ++ Ev.down ::
    ((generate_bezier_curve startP endP dragOffs).map Ev.move ++ [Ev.up])).getLast?
      = some Ev.up
  rw [show ∀ (a m : List Ev), a ++ Ev.down :: (m ++ [Ev.up]) = (a ++ Ev.down :: m) ++ [Ev.up]
      from fun a m => by simp,
    List.getLast?_concat]

theorem filterMap_if_eq_map {α β : Type} (p : α → Prop) [DecidablePred p] (f : α → β) :
    ∀ (l : List α), (∀ a ∈ l, p a) →
      l.filterMap (fun a => if p a then some (f a) else none) = l.map f
  | [], _ => rfl
  | a :: l, h => by
      rw [List.filterMap_cons, if_pos (h a (by simp)), List.map_cons,
        filterMap_if_eq_map p f l (fun b hb => h b (by simp [hb]))]

theorem speedsOf_eq_map (sqrtFn : ℚ → ℚ) (hist : List HistEntry)
    (h : ∀ pr ∈ hist.zip hist.tail, 0 < tdiff pr) :
    speedsOf sqrtFn hist = (hist.zip hist.tail).map (pairSpeed sqrtFn) := by
  unfold speedsOf
  exact filterMap_if_eq_map (fun pr => 0 < tdiff pr) (pairSpeed sqrtFn) _ h

theorem zip_tail_length (hist : List HistEntry) (h : 2 ≤ hist.length) :
    (hist.zip hist.tail).length = hist.length - 1 := by
  rw [List.length_zip, List.length_tail]
  omega

/-- C9: `get_behavior_pattern` never mutates the state (the source method
only reads `self`); it returns the empty pattern (`none`) when the history
holds fewer than 2 entries; and otherwise — whenever every consecutive
history pair has positive elapsed time, so that the source's
`time_diff > 0` guard drops no pair and the spec's per-pair quotient is
defined — it returns the action counter, the history length, the
last-action time, and the mean of (Euclidean distance / elapsed time) over
every pair of consecutive history entries. -/
theorem behavior_pattern_spec (sqrtFn : ℚ → ℚ) (st : SimState) :
    (get_behavior_pattern sqrtFn st).2 = st ∧
    (st.mouse_history.length < 2 → (get_behavior_pattern sqrtFn st).1 = none) ∧
    (2 ≤ st.mouse_history.length →
      (∀ pr ∈ st.mouse_history.zip st.mouse_history.tail, 0 < tdiff pr) →
      (get_behavior_pattern sqrtFn st).1 =
        some ⟨st.action_counter, st.mouse_history.length,
          meanSpeedSpec sqrtFn st.mouse_history, st.last_action_time⟩) := by
  refine ⟨?_, ?_, ?_⟩
  · unfold get_behavior_pattern
    split <;> rfl
  · intro h
    unfold get_behavior_pattern
    rw [if_pos h]
  · intro hlen hpos
    have hsp := speedsOf_eq_map sqrtFn st.mouse_history hpos
    have hlz := zip_tail_length st.mouse_history hlen
    have hne : (st.mouse_history.zip st.mouse_history.tail).map (pairSpeed sqrtFn) ≠ [] := by
      intro hnil
      have := congrArg List.length hnil
      rw [List.length_map, hlz] at this
      simp at this
      omega
    unfold get_behavior_pattern
    rw [if_neg (by omega), hsp, if_neg hne]
    unfold meanSpeedSpec
    rw [List.length_map]

theorem behavior_pattern_spec_witness :
    (2 ≤ behaviorSampleState.mouse_history.length ∧
      (∀ pr ∈ behaviorSampleState.mouse_history.zip behaviorSampleState.mouse_history.tail,
        0 < tdiff pr)) ∧
    (get_behavior_pattern (fun q => q) behaviorSampleState).1 =
      some ⟨behaviorSampleState.action_counter, behaviorSampleState.mouse_history.length,
        meanSpeedSpec (fun q => q) behaviorSampleState.mouse_history,
        behaviorSampleState.last_action_time⟩ := by
  have h1 : 2 ≤ behaviorSampleState.mouse_history.length := by
    norm_num [behaviorSampleState]
  have h2 : ∀ pr ∈ behaviorSampleState.mouse_history.zip
      behaviorSampleState.mouse_history.tail, 0 < tdiff pr := by
    intro pr hpr
    simp only [behaviorSampleState, List.zip_cons_cons, List.tail_cons, List.zip_nil_right,
      List.mem_singleton] at hpr
    rw [hpr]
    norm_num [tdiff]
  exact ⟨⟨h1, h2⟩, (behavior_pattern_spec (fun q => q) behaviorSampleState).2.2 h1 h2⟩
